import Mathlib

/-
Verification of the row-oriented Excel data-access layer
(`src/project_mcp_server/excel_handler.py`) of the MPC_modify_Excel project.

The worksheet is modelled as a header row plus a list of data rows.  openpyxl
pads every row access (`ws[1]`, `iter_rows`) to the sheet width `max_column`
with empty cells, so out-of-range cell reads are modelled with `List.getD`
returning the empty cell `Value.vnone`; this is observably identical to the
padded tuples the Python code iterates over.  Saving and re-loading the
workbook is modelled as the identity on the worksheet state.

Python cell values are modelled by `Value` (None, str, int, bool), Python
truthiness by `Value.truthy`, and Python `==` by `Value.pyEq` (bool compares
equal to its numeric value, as in Python).  Python dicts (records, patches,
filters, the header mapping) are modelled as insertion-ordered association
lists: `dset` overwrites the value of an existing key in place (keeping the
original key and position, as CPython dicts do) and `dget` is `dict.get`.
-/

namespace ExcelHandler

/-- A Python value as it occurs in worksheet cells and tool arguments. -/
inductive Value where
  | vnone : Value
  | vstr : String → Value
  | vint : Int → Value
  | vbool : Bool → Value
deriving DecidableEq, Repr

/-- Python truthiness (`bool(v)`): None, "", 0 and False are falsy. -/
def Value.truthy : Value → Bool
  | .vnone => false
  | .vstr s => s ≠ ""
  | .vint n => n ≠ 0
  | .vbool b => b

/-- Canonical key used to decide Python `==` on these values: in Python a
bool compares equal to its numeric value (True == 1, False == 0), strings
compare only to strings, and None only to None. -/
inductive PyKey where
  | knone : PyKey
  | kint : Int → PyKey
  | kstr : String → PyKey
deriving DecidableEq, Repr

def Value.pyKey : Value → PyKey
  | .vnone => .knone
  | .vstr s => .kstr s
  | .vint n => .kint n
  | .vbool b => .kint (if b then 1 else 0)

/-- Python equality `a == b` on the modelled values. -/
def Value.pyEq (a b : Value) : Bool :=
  a.pyKey = b.pyKey

theorem Value.pyEq_refl (a : Value) : Value.pyEq a a = true := by
  simp [Value.pyEq]

theorem Value.pyEq_symm (a b : Value) : Value.pyEq a b = Value.pyEq b a := by
  simp [Value.pyEq, eq_comm]

theorem Value.pyEq_trans {a b c : Value} (h1 : Value.pyEq a b = true)
    (h2 : Value.pyEq b c = true) : Value.pyEq a c = true := by
  simp [Value.pyEq] at *
  exact h1.trans h2

/-- A Python dict with `Value` keys, as an insertion-ordered association
list. -/
abbrev PyDict := List (Value × Value)

/-- `dict.get(k)`: the value of the first (hence only, for real dicts)
entry whose key compares `==` to `k`, or `none`. -/
def dget {α : Type} : List (Value × α) → Value → Option α
  | [], _ => none
  | (k, v) :: rest, q => if Value.pyEq k q then some v else dget rest q

/-- `d[k] = v`: overwrite the value of an existing `==`-equal key in place
(keeping the stored key and its position), else append the new entry. -/
def dset {α : Type} : List (Value × α) → Value → α → List (Value × α)
  | [], k, v => [(k, v)]
  | (k', v') :: rest, k, v =>
    if Value.pyEq k' k then (k', v) :: rest else (k', v') :: dset rest k v

/-- `dict.get(k)` as used in boolean positions: absent keys read as None. -/
def pyGet (d : PyDict) (k : Value) : Value :=
  (dget d k).getD .vnone

/-- The single worksheet of the backing xlsx file: row 1 is the header,
rows 2+ are the data rows. -/
structure Worksheet where
  header : List Value
  data : List (List Value)
deriving DecidableEq, Repr

/-- The error taxonomy of `excel_handler.py`.  `indexErr` models the
uncaught Python `IndexError` that `add_project` raises when a schema
position falls outside the new row it builds. -/
inductive Err where
  | fileNotFound : Err
  | fileAccess : Err
  | invalidData : Err
  | notFound : Err
  | duplicate : Err
  | indexErr : Err
deriving DecidableEq, Repr

/-- `VALID_STATUSES`: 未着手 (not started), 進行中 (in progress),
完了 (done), 中止 (cancelled). -/
def VALID_STATUSES : List Value :=
  [.vstr "未着手", .vstr "進行中", .vstr "完了", .vstr "中止"]

/-- The identity column name, `"プロジェクト"` (project name). -/
def colProject : Value := .vstr "プロジェクト"

/-- The status column name, `"進行状況"`. -/
def colStatus : Value := .vstr "進行状況"

/-- `_validate_status`: `status in VALID_STATUSES`. -/
def validate_status (status : Value) : Bool :=
  VALID_STATUSES.any (fun s => Value.pyEq status s)

/-- Shared shape of the two header-driven dict builds of the source:
`_get_header_mapping` inserts `cell.value ↦ idx` and the row-to-record
loop of `get_all_projects` inserts `header ↦ row[idx]`, both skipping
falsy cells and overwriting earlier entries on duplicate names. -/
def rowFold {α : Type} (g : Nat → α) :
    List Value → Nat → List (Value × α) → List (Value × α)
  | [], _, acc => acc
  | c :: rest, idx, acc =>
    rowFold g rest (idx + 1) (if c.truthy then dset acc c (g idx) else acc)

/-- `_get_header_mapping`: column name ↦ zero-based column index, from the
first row, skipping falsy cells. -/
def get_header_mapping (ws : Worksheet) : List (Value × Nat) :=
  rowFold (fun i => i) ws.header 0 []

/-- The record built for one data row in `get_all_projects`:
`project[header] = row[idx]` for each truthy header cell (row reads are
padded with empty cells, per openpyxl). -/
def rowToProject (header row : List Value) : PyDict :=
  rowFold (fun i => row.getD i .vnone) header 0 []

/-- `get_all_projects`: every data row that is not blank (`any(row)` —
Python truthiness, so a row of Nones, empty strings, zeros and Falses is
skipped), turned into a record keyed by the truthy header cells. -/
def get_all_projects : Option Worksheet → Except Err (List PyDict)
  | none => .error .fileNotFound
  | some ws =>
    .ok ((ws.data.filter (fun r => r.any Value.truthy)).map
      (rowToProject ws.header))

/-- `get_project`: first record of `get_all_projects` whose
`プロジェクト` value compares `==` to `project_name`. -/
def get_project (project_name : Value) (fs : Option Worksheet) :
    Except Err (Option PyDict) :=
  (get_all_projects fs).map
    (fun ps => ps.find? (fun p => Value.pyEq (pyGet p colProject) project_name))

/-- The row-building loop of `add_project`: over the header-mapping
entries in order, place `project_data[column_name]` at `column_idx` when
the key is present; a position at or past the row length raises
`IndexError`. -/
def buildRowGo (project_data : PyDict) :
    List (Value × Nat) → List Value → Except Err (List Value)
  | [], row => .ok row
  | (cname, cidx) :: rest, row =>
    match dget project_data cname with
    | none => buildRowGo project_data rest row
    | some v =>
      if cidx < row.length then buildRowGo project_data rest (row.set cidx v)
      else .error .indexErr

/-- `add_project`: validate the name (truthy) and the status (defaulting
to 未着手 for the validation only when the key is absent), fail on a
duplicate (`if existing:` — Python truthiness of the found dict), then
append one row of `len(header_mapping)` cells initialised to `""`. -/
def add_project (project_data : PyDict) (fs : Option Worksheet) :
    Except Err Worksheet :=
  if !(pyGet project_data colProject).truthy then .error .invalidData
  else if !validate_status ((dget project_data colStatus).getD (.vstr "未着手"))
    then .error .invalidData
  else
    match get_project (pyGet project_data colProject) fs with
    | .error e => .error e
    | .ok existing =>
      if (match existing with
          | some p => !p.isEmpty
          | none => false) then .error .duplicate
      else
        match fs with
        | none => .error .fileNotFound
        | some ws =>
          match buildRowGo project_data (get_header_mapping ws)
              (List.replicate (get_header_mapping ws).length (.vstr "")) with
          | .error e => .error e
          | .ok newRow => .ok ⟨ws.header, ws.data ++ [newRow]⟩

/-- `ws.cell(row, column_idx + 1, value)`: writing a cell past the end of
the stored row materialises the intervening empty cells. -/
def setCell (r : List Value) (i : Nat) (v : Value) : List Value :=
  (r ++ List.replicate (i + 1 - r.length) Value.vnone).set i v

/-- The update loop of `update_project`: each patch entry whose key is in
the header mapping overwrites the mapped cell of the target row; other
keys are ignored. -/
def applyUpdates (hm : List (Value × Nat)) (updates : PyDict)
    (row : List Value) : List Value :=
  updates.foldl
    (fun r kv =>
      match dget hm kv.1 with
      | some ci => setCell r ci kv.2
      | none => r) row

/-- `update_project`: status validated before any file access; the
identity column must be in the schema; the first data row whose identity
cell compares `==` to the name is patched in place. -/
def update_project (project_name : Value) (updates : PyDict)
    (fs : Option Worksheet) : Except Err Worksheet :=
  if (match dget updates colStatus with
      | some st => !validate_status st
      | none => false) then .error .invalidData
  else
    match fs with
    | none => .error .fileNotFound
    | some ws =>
      match dget (get_header_mapping ws) colProject with
      | none => .error .invalidData
      | some pidx =>
        match ws.data.findIdx?
            (fun r => Value.pyEq (r.getD pidx .vnone) project_name) with
        | none => .error .notFound
        | some j =>
          .ok ⟨ws.header,
            ws.data.set j
              (applyUpdates (get_header_mapping ws) updates
                (ws.data.getD j []))⟩

/-- `delete_project`: same row location as update, then
`ws.delete_rows(target_row)` removes that one row. -/
def delete_project (project_name : Value) (fs : Option Worksheet) :
    Except Err Worksheet :=
  match fs with
  | none => .error .fileNotFound
  | some ws =>
    match dget (get_header_mapping ws) colProject with
    | none => .error .invalidData
    | some pidx =>
      match ws.data.findIdx?
          (fun r => Value.pyEq (r.getD pidx .vnone) project_name) with
      | none => .error .notFound
      | some j => .ok ⟨ws.header, ws.data.eraseIdx j⟩

/-- `search_projects`: keep the records of `get_all_projects` for which
every filter entry satisfies `project.get(key) == value` (absent keys
read as None). -/
def search_projects (filters : PyDict) (fs : Option Worksheet) :
    Except Err (List PyDict) :=
  (get_all_projects fs).map
    (fun ps => ps.filter
      (fun p => filters.all (fun kv => Value.pyEq (pyGet p kv.1) kv.2)))

/-! ### Characterization definitions

Spec-side descriptions used to state what the source-level folds compute. -/

/-- The enumerated header: cell `j` paired with `g (start + j)`.  Under an
all-truthy, duplicate-free header this is exactly what `rowFold` builds. -/
def enumPairs {α : Type} (g : Nat → α) : List Value → Nat → List (Value × α)
  | [], _ => []
  | c :: rest, i => (c, g i) :: enumPairs g rest (i + 1)

/-- Position of the last truthy cell comparing `==` to `q`, counting from
`i`; this is the index a duplicated column name ends up mapped to. -/
def lastTruthy : List Value → Nat → Value → Option Nat
  | [], _, _ => none
  | c :: rest, i, q =>
    match lastTruthy rest (i + 1) q with
    | some j => some j
    | none => if c.truthy && Value.pyEq c q then some i else none

/-- Modelled from the spec's words for the schema resolver: the zero-based
index of the last header cell holding exactly the (non-empty) string `s`. -/
def lastStrIdx : List Value → Nat → String → Option Nat
  | [], _, _ => none
  | c :: rest, i, s =>
    match lastStrIdx rest (i + 1) s with
    | some j => some j
    | none => if c = .vstr s then some i else none

/-- The value the update loop leaves in column `ci`: the value of the last
patch entry whose key is mapped to `ci` by the schema, if any. -/
def lastPatchAt (hm : List (Value × Nat)) : PyDict → Nat → Option Value
  | [], _ => none
  | (k, v) :: rest, ci =>
    match lastPatchAt hm rest ci with
    | some w => some w
    | none => if dget hm k = some ci then some v else none

/-! ### Dictionary lemmas -/

theorem pyEq_iff {a b : Value} : Value.pyEq a b = true ↔ a.pyKey = b.pyKey := by
  simp [Value.pyEq]

/-- Truthiness at the level of canonical keys. -/
def PyKey.keyTruthy : PyKey → Bool
  | .knone => false
  | .kint n => n ≠ 0
  | .kstr s => s ≠ ""

theorem truthy_eq_keyTruthy (v : Value) : v.truthy = v.pyKey.keyTruthy := by
  cases v with
  | vnone => rfl
  | vstr s => rfl
  | vint n => rfl
  | vbool b => cases b <;> rfl

theorem pyEq_truthy {a b : Value} (h : Value.pyEq a b = true) :
    a.truthy = b.truthy := by
  rw [truthy_eq_keyTruthy, truthy_eq_keyTruthy, pyEq_iff.mp h]

theorem pyEq_vnone_right {v : Value} (h : Value.pyEq .vnone v = true) :
    v = .vnone := by
  have hk := pyEq_iff.mp h
  cases v <;> simp_all [Value.pyKey]

theorem dget_dset {α : Type} (d : List (Value × α)) (k : Value) (v : α)
    (q : Value) :
    dget (dset d k v) q = if Value.pyEq k q then some v else dget d q := by
  induction d with
  | nil => simp [dset, dget]
  | cons p rest ih =>
    obtain ⟨k', v'⟩ := p
    by_cases h : Value.pyEq k' k = true
    · have hiff : Value.pyEq k' q = Value.pyEq k q := by
        simp [Value.pyEq, pyEq_iff.mp h]
      simp only [dset, h, if_true, dget, hiff]
      by_cases hq : Value.pyEq k q = true <;> simp [hq]
    · have h' : Value.pyEq k' k = false := by
        cases h2 : Value.pyEq k' k
        · rfl
        · exact absurd h2 h
      have himp : Value.pyEq k' q = true → Value.pyEq k q = false := by
        intro h3
        cases h4 : Value.pyEq k q
        · rfl
        · exact absurd (pyEq_iff.mpr ((pyEq_iff.mp h3).trans
            (pyEq_iff.mp h4).symm ▸ rfl)) h
      by_cases h5 : Value.pyEq k' q = true
      · simp [dset, h', dget, h5, himp h5]
      · have h5' : Value.pyEq k' q = false := by
          cases h6 : Value.pyEq k' q
          · rfl
          · exact absurd h6 h5
        simp [dset, h', dget, h5', ih]

theorem dset_eq_append {α : Type} (d : List (Value × α)) (k : Value) (v : α)
    (h : ∀ p ∈ d, Value.pyEq p.1 k = false) :
    dset d k v = d ++ [(k, v)] := by
  induction d with
  | nil => rfl
  | cons p rest ih =>
    obtain ⟨k', v'⟩ := p
    have h1 : Value.pyEq k' k = false := h (k', v') (by simp)
    simp only [dset, h1, Bool.false_eq_true, if_false, List.cons_append,
      List.cons.injEq, true_and]
    exact ih (fun p hp => h p (List.mem_cons_of_mem _ hp))

/-! ### List access helpers -/

theorem getD_set_eq {α : Type} (l : List α) (i : Nat) (v d : α)
    (h : i < l.length) : (l.set i v).getD i d = v := by
  rw [List.getD_eq_getElem _ _ (by simpa using h)]
  exact List.getElem_set_self _

theorem getD_set_ne {α : Type} (l : List α) (i j : Nat) (v d : α)
    (h : i ≠ j) : (l.set i v).getD j d = l.getD j d := by
  induction l generalizing i j with
  | nil => rfl
  | cons c rest ih =>
    cases i with
    | zero =>
      cases j with
      | zero => exact absurd rfl h
      | succ j' => rfl
    | succ i' =>
      cases j with
      | zero => rfl
      | succ j' => exact ih i' j' (fun he => h (by rw [he]))

theorem getD_replicate {α : Type} (n j : Nat) (d : α) :
    (List.replicate n d).getD j d = d := by
  induction n generalizing j with
  | zero => rfl
  | succ n' ih =>
    cases j with
    | zero => rfl
    | succ j' => exact ih j'

theorem getD_append_replicate {α : Type} (l : List α) (k j : Nat) (d : α) :
    (l ++ List.replicate k d).getD j d = l.getD j d := by
  induction l generalizing j with
  | nil =>
    rw [List.nil_append, getD_replicate]
    rfl
  | cons c rest ih =>
    cases j with
    | zero => rfl
    | succ j' => exact ih j'

theorem setCell_getD_eq (r : List Value) (i : Nat) (v : Value) :
    (setCell r i v).getD i .vnone = v := by
  apply getD_set_eq
  simp only [List.length_append, List.length_replicate]
  omega

theorem setCell_getD_ne (r : List Value) (i j : Nat) (v : Value)
    (h : i ≠ j) : (setCell r i v).getD j .vnone = r.getD j .vnone := by
  rw [setCell, getD_set_ne _ _ _ _ _ h, getD_append_replicate]

/-! ### Characterizing the header-driven folds -/

theorem enumPairs_length {α : Type} (g : Nat → α) (cells : List Value)
    (i : Nat) : (enumPairs g cells i).length = cells.length := by
  induction cells generalizing i with
  | nil => rfl
  | cons c rest ih => simp [enumPairs, ih]

theorem dget_rowFold {α : Type} (g : Nat → α) (cells : List Value) (i : Nat)
    (acc : List (Value × α)) (q : Value) :
    dget (rowFold g cells i acc) q =
      match lastTruthy cells i q with
      | some j => some (g j)
      | none => dget acc q := by
  induction cells generalizing i acc with
  | nil => rfl
  | cons c rest ih =>
    rw [rowFold, ih]
    cases hrest : lastTruthy rest (i + 1) q with
    | some j => simp [lastTruthy, hrest]
    | none =>
      simp only [lastTruthy, hrest]
      by_cases htr : c.truthy = true
      · simp only [htr, if_true, dget_dset, Bool.true_and]
        by_cases hq : Value.pyEq c q = true
        · simp [hq]
        · have hq' : Value.pyEq c q = false := by
            cases h2 : Value.pyEq c q
            · rfl
            · exact absurd h2 hq
          simp [hq']
      · have htr' : c.truthy = false := by
          cases h2 : c.truthy
          · rfl
          · exact absurd h2 htr
        simp [htr']

theorem rowFold_eq_append {α : Type} (g : Nat → α) (cells : List Value)
    (i : Nat) (acc : List (Value × α))
    (htr : ∀ c ∈ cells, c.truthy = true)
    (hacc : ∀ c ∈ cells, ∀ p ∈ acc, Value.pyEq p.1 c = false)
    (hdist : cells.Pairwise (fun a b => Value.pyEq a b = false)) :
    rowFold g cells i acc = acc ++ enumPairs g cells i := by
  induction cells generalizing i acc with
  | nil => simp [rowFold, enumPairs]
  | cons c rest ih =>
    have hc : c.truthy = true := htr c (by simp)
    rw [rowFold, enumPairs]
    simp only [hc, if_true]
    rw [dset_eq_append _ _ _ (hacc c (by simp))]
    rw [ih (i + 1) _ (fun c' hc' => htr c' (by simp [hc']))
      (fun c' hc' p hp => by
        rcases List.mem_append.mp hp with hp1 | hp2
        · exact hacc c' (by simp [hc']) p hp1
        · have hpe : p = (c, g i) := by simpa using hp2
          rw [hpe]
          exact (List.pairwise_cons.mp hdist).1 c' hc')
      (List.pairwise_cons.mp hdist).2]
    simp

theorem dget_enumPairs {α : Type} (g : Nat → α) (cells : List Value)
    (i : Nat) (q : Value) (j : Nat) (hj : j < cells.length)
    (hq : Value.pyEq (cells.getD j .vnone) q = true)
    (hfirst : ∀ j', j' < j → Value.pyEq (cells.getD j' .vnone) q = false) :
    dget (enumPairs g cells i) q = some (g (i + j)) := by
  induction cells generalizing i j with
  | nil => exact absurd hj (by simp)
  | cons c rest ih =>
    cases j with
    | zero =>
      have hc : Value.pyEq c q = true := by simpa using hq
      simp [enumPairs, dget, hc]
    | succ j' =>
      have hc : Value.pyEq c q = false := by
        have h0 := hfirst 0 (Nat.succ_pos j')
        simpa using h0
      simp only [enumPairs, dget, hc, Bool.false_eq_true, if_false]
      have hlt : j' < rest.length := by
        simp only [List.length_cons] at hj
        omega
      have hq' : Value.pyEq (rest.getD j' .vnone) q = true := by
        simpa using hq
      have hrec := ih (i + 1) j' hlt hq'
        (fun j'' hj'' => by
          have h1 := hfirst (j'' + 1) (Nat.succ_lt_succ hj'')
          simpa using h1)
      rw [hrec]
      congr 2
      omega

/-! ### The row built by `add_project` -/

theorem buildRowGo_length (pd : PyDict) (l : List (Value × Nat))
    (row row' : List Value) (h : buildRowGo pd l row = .ok row') :
    row'.length = row.length := by
  induction l generalizing row with
  | nil =>
    simp only [buildRowGo] at h
    cases h
    rfl
  | cons p rest ih =>
    obtain ⟨cname, cidx⟩ := p
    simp only [buildRowGo] at h
    cases hd : dget pd cname with
    | none =>
      simp only [hd] at h
      exact ih row h
    | some v =>
      simp only [hd] at h
      by_cases hlt : cidx < row.length
      · rw [if_pos hlt] at h
        rw [ih _ h]
        exact List.length_set row cidx v
      · rw [if_neg hlt] at h
        cases h

theorem buildRowGo_enum (pd : PyDict) (cells : List Value) (i : Nat)
    (row : List Value) (hlen : i + cells.length ≤ row.length) :
    ∃ row', buildRowGo pd (enumPairs (fun t => t) cells i) row = .ok row' ∧
      row'.length = row.length ∧
      (∀ j, j < i → row'.getD j .vnone = row.getD j .vnone) ∧
      (∀ j, i + cells.length ≤ j → row'.getD j .vnone = row.getD j .vnone) ∧
      (∀ j, j < cells.length → row'.getD (i + j) .vnone =
        match dget pd (cells.getD j .vnone) with
        | some v => v
        | none => row.getD (i + j) .vnone) := by
  induction cells generalizing i row with
  | nil =>
    exact ⟨row, rfl, rfl, fun _ _ => rfl, fun _ _ => rfl,
      fun j hj => absurd hj (by simp)⟩
  | cons c rest ih =>
    have hi : i < row.length := by
      simp only [List.length_cons] at hlen
      omega
    cases hd : dget pd c with
    | none =>
      obtain ⟨row', heq, hl, hlo, hhi, hmid⟩ := ih (i + 1) row
        (by simp only [List.length_cons] at hlen; omega)
      refine ⟨row', ?_, hl, ?_, ?_, ?_⟩
      · simp only [enumPairs, buildRowGo, hd]
        exact heq
      · exact fun j hj => hlo j (by omega)
      · exact fun j hj => hhi j (by simp only [List.length_cons] at hj; omega)
      · intro j hj
        cases j with
        | zero =>
          simp only [List.getD_cons_zero, hd, Nat.add_zero]
          exact hlo i (by omega)
        | succ j' =>
          have hj' : j' < rest.length := by
            simp only [List.length_cons] at hj
            omega
          have := hmid j' hj'
          simp only [List.getD_cons_succ]
          rw [show i + (j' + 1) = i + 1 + j' by omega]
          exact this
    | some v =>
      obtain ⟨row', heq, hl, hlo, hhi, hmid⟩ := ih (i + 1) (row.set i v)
        (by simp only [List.length_cons] at hlen
            rw [List.length_set]
            omega)
      refine ⟨row', ?_, ?_, ?_, ?_, ?_⟩
      · simp only [enumPairs, buildRowGo, hd, if_pos hi]
        exact heq
      · rw [hl, List.length_set]
      · intro j hj
        rw [hlo j (by omega), getD_set_ne _ _ _ _ _ (by omega)]
      · intro j hj
        simp only [List.length_cons] at hj
        rw [hhi j (by omega), getD_set_ne _ _ _ _ _ (by omega)]
      · intro j hj
        cases j with
        | zero =>
          simp only [List.getD_cons_zero, hd, Nat.add_zero]
          rw [hlo i (by omega)]
          exact getD_set_eq row i v _ hi
        | succ j' =>
          have hj' : j' < rest.length := by
            simp only [List.length_cons] at hj
            omega
          have hm := hmid j' hj'
          simp only [List.getD_cons_succ]
          rw [show i + (j' + 1) = i + 1 + j' by omega]
          rw [hm]
          cases dget pd (rest.getD j' .vnone) with
          | none =>
            simp only
            exact getD_set_ne row i (i + 1 + j') v _ (by omega)
          | some w => rfl

theorem get_header_mapping_eq_enumPairs (ws : Worksheet)
    (htr : ∀ c ∈ ws.header, c.truthy = true)
    (hdist : ws.header.Pairwise (fun a b => Value.pyEq a b = false)) :
    get_header_mapping ws = enumPairs (fun i => i) ws.header 0 := by
  have h := rowFold_eq_append (fun i => i) ws.header 0 [] htr
    (fun c _ p hp => absurd hp (List.not_mem_nil p)) hdist
  simpa [get_header_mapping] using h

/-- What a successful `add_project` does on a well-formed header (every
cell non-blank, no duplicate column names): appends exactly one row, of
one cell per header column, holding the record's value for that column
when present and the empty string otherwise. -/
theorem add_project_ok (ws : Worksheet) (pd : PyDict)
    (htr : ∀ c ∈ ws.header, c.truthy = true)
    (hdist : ws.header.Pairwise (fun a b => Value.pyEq a b = false))
    (hname : (pyGet pd colProject).truthy = true)
    (hstat : validate_status ((dget pd colStatus).getD (.vstr "未着手")) = true)
    (hdup : get_project (pyGet pd colProject) (some ws) = .ok none) :
    ∃ newRow, add_project pd (some ws) = .ok ⟨ws.header, ws.data ++ [newRow]⟩ ∧
      newRow.length = ws.header.length ∧
      (∀ j, j < ws.header.length →
        newRow.getD j .vnone = (dget pd (ws.header.getD j .vnone)).getD (.vstr "")) := by
  have hhm := get_header_mapping_eq_enumPairs ws htr hdist
  have hn : (get_header_mapping ws).length = ws.header.length := by
    rw [hhm, enumPairs_length]
  obtain ⟨newRow, heq, hl, _, _, hmid⟩ := buildRowGo_enum pd ws.header 0
    (List.replicate (get_header_mapping ws).length (.vstr ""))
    (by rw [List.length_replicate, hn]; omega)
  refine ⟨newRow, ?_, ?_, ?_⟩
  · rw [add_project]
    simp only [hname, Bool.not_true, Bool.false_eq_true, if_false, hstat,
      hdup]
    rw [← hhm] at heq
    simp [heq]
  · rw [hl, List.length_replicate, hn]
  · intro j hj
    have hm := hmid j hj
    simp only [Nat.zero_add] at hm
    rw [hm]
    cases hd : dget pd (ws.header.getD j .vnone) with
    | none =>
      simp only [Option.getD_none]
      rw [List.getD_eq_getElem _ _ (by rw [List.length_replicate, hn]; omega)]
      exact List.getElem_replicate _ _
    | some v => rfl

/-- Inversion of a successful add: whatever the header looks like, the
result appends exactly one row whose length is the number of entries of
the header mapping (not the column count of the table). -/
theorem add_project_ok_inv (pd : PyDict) (ws ws2 : Worksheet)
    (h : add_project pd (some ws) = .ok ws2) :
    ws2.header = ws.header ∧ ∃ r, ws2.data = ws.data ++ [r] ∧
      r.length = (get_header_mapping ws).length := by
  rw [add_project] at h
  split at h
  · cases h
  · split at h
    · cases h
    · split at h
      · cases h
      · split at h
        · cases h
        · split at h
          · cases h
          · rename_i newRow hbuild
            cases h
            exact ⟨rfl, newRow, rfl,
              by rw [buildRowGo_length pd _ _ _ hbuild, List.length_replicate]⟩

/-! ### Concrete sample data shared by the witnesses -/

/-- The five canonical columns: プロジェクト (name), 進行状況 (status),
期限 (deadline), 担当者 (assignee), 備考 (notes). -/
def headerW : List Value :=
  [colProject, colStatus, .vstr "期限", .vstr "担当者", .vstr "備考"]

/-- A sample workbook with the canonical header and one record. -/
def wsW : Worksheet :=
  ⟨headerW, [[.vstr "Alpha", .vstr "進行中", .vstr "2025-01-01", .vstr "A",
    .vstr ""]]⟩

/-- A valid input record with no status field. -/
def pdW : PyDict := [(colProject, .vstr "Beta"), (.vstr "担当者", .vstr "B")]

/-- A worksheet whose header has a blank second cell, so the table has two
columns but the header mapping only one entry. -/
def wsBlankCol : Worksheet := ⟨[colProject, .vnone], []⟩

/-! ### C2 -/

/-- C2 (amended): a successful `add_project` appends exactly one row, and
that row is sized to the number of entries of the header mapping (the
distinct non-empty header names), not to the column count of the table;
when the header cells are all non-blank and pairwise distinct the two
coincide and each field present in the record is placed at its mapped
position, every other position holding the blank string. -/
theorem c2_add_builds_mapped_row :
    (∀ pd ws ws2, add_project pd (some ws) = .ok ws2 →
      ws2.header = ws.header ∧ ∃ r, ws2.data = ws.data ++ [r] ∧
        r.length = (get_header_mapping ws).length) ∧
    (∀ ws pd, (∀ c ∈ ws.header, c.truthy = true) →
      ws.header.Pairwise (fun a b => Value.pyEq a b = false) →
      (pyGet pd colProject).truthy = true →
      validate_status ((dget pd colStatus).getD (.vstr "未着手")) = true →
      get_project (pyGet pd colProject) (some ws) = .ok none →
      ∃ newRow,
        add_project pd (some ws) = .ok ⟨ws.header, ws.data ++ [newRow]⟩ ∧
        newRow.length = ws.header.length ∧
        (∀ j, j < ws.header.length → newRow.getD j .vnone =
          (dget pd (ws.header.getD j .vnone)).getD (.vstr ""))) :=
  ⟨add_project_ok_inv,
   fun ws pd htr hdist hname hstat hdup =>
     add_project_ok ws pd htr hdist hname hstat hdup⟩

/-- C2 counterexample: on a two-column table whose second header cell is
blank, the appended row has one cell, not two — the new row is not sized
to the column count of the table. -/
theorem c2_counterexample :
    add_project [(colProject, .vstr "Beta")] (some wsBlankCol) =
      .ok ⟨[colProject, .vnone], [[.vstr "Beta"]]⟩ ∧
    ([Value.vstr "Beta"] : List Value).length ≠ wsBlankCol.header.length := by
  exact ⟨rfl, by decide⟩

/-- C2 witness: the amended statement evaluated on the sample workbook. -/
theorem c2_witness :
    ∃ newRow,
      add_project pdW (some wsW) = .ok ⟨wsW.header, wsW.data ++ [newRow]⟩ ∧
      newRow.length = wsW.header.length ∧
      (∀ j, j < wsW.header.length → newRow.getD j .vnone =
        (dget pdW (wsW.header.getD j .vnone)).getD (.vstr "")) :=
  c2_add_builds_mapped_row.2 wsW pdW (by decide) (by decide) (by decide)
    (by decide) rfl

/-! ### C1 -/

/-- The record produced for one row on a well-formed header: each header
column is mapped to the row cell at its index. -/
theorem dget_rowToProject (ws : Worksheet) (row : List Value)
    (htr : ∀ c ∈ ws.header, c.truthy = true)
    (hdist : ws.header.Pairwise (fun a b => Value.pyEq a b = false))
    (j : Nat) (hj : j < ws.header.length) :
    dget (rowToProject ws.header row) (ws.header.getD j .vnone) =
      some (row.getD j .vnone) := by
  have hproj : rowToProject ws.header row =
      enumPairs (fun i => row.getD i .vnone) ws.header 0 := by
    have h := rowFold_eq_append (fun i => row.getD i .vnone) ws.header 0 []
      htr (fun c _ p hp => absurd hp (List.not_mem_nil p)) hdist
    simpa [rowToProject] using h
  have hdisti : ∀ i i', i < ws.header.length → i' < ws.header.length →
      i ≠ i' →
      Value.pyEq (ws.header.getD i .vnone) (ws.header.getD i' .vnone) = false := by
    intro i i' hi hi' hne
    rw [List.getD_eq_getElem _ _ hi, List.getD_eq_getElem _ _ hi']
    rcases Nat.lt_or_ge i i' with hlt | hge
    · exact (List.pairwise_iff_getElem.mp hdist) i i' hi hi' hlt
    · have hlt : i' < i := by omega
      rw [Value.pyEq_symm]
      exact (List.pairwise_iff_getElem.mp hdist) i' i hi' hi hlt
  rw [hproj]
  have h := dget_enumPairs (fun i => row.getD i .vnone) ws.header 0
    (ws.header.getD j .vnone) j hj (Value.pyEq_refl _)
    (fun j' hj' => hdisti j' j (by omega) hj (by omega))
  simpa using h

/-- C1 (amended): on a well-formed header, after a successful add,
`get_project` of the new name returns a record holding, for every header
column, exactly the value the input record carried for that column —
and the blank string (NOT the default status 未着手) for every column,
the status column included, that the input omitted.  The 未着手 default
of `add_project` is used only to validate an absent status, never
written. -/
theorem c1_add_get_roundtrip (ws : Worksheet) (pd : PyDict)
    (htr : ∀ c ∈ ws.header, c.truthy = true)
    (hdist : ws.header.Pairwise (fun a b => Value.pyEq a b = false))
    (hname : (pyGet pd colProject).truthy = true)
    (hstat : validate_status ((dget pd colStatus).getD (.vstr "未着手")) = true)
    (hdup : get_project (pyGet pd colProject) (some ws) = .ok none)
    (hpcol : colProject ∈ ws.header) :
    ∃ ws2 proj, add_project pd (some ws) = .ok ws2 ∧
      get_project (pyGet pd colProject) (some ws2) = .ok (some proj) ∧
      (∀ j, j < ws.header.length →
        dget proj (ws.header.getD j .vnone) =
          some ((dget pd (ws.header.getD j .vnone)).getD (.vstr ""))) ∧
      (colStatus ∈ ws.header → dget pd colStatus = none →
        dget proj colStatus = some (.vstr "")) := by
  obtain ⟨newRow, heq, hlen, hval⟩ :=
    add_project_ok ws pd htr hdist hname hstat hdup
  have hnm : dget pd colProject = some (pyGet pd colProject) := by
    cases h : dget pd colProject with
    | none =>
      rw [pyGet, h] at hname
      exact absurd hname (by simp [Value.truthy])
    | some x =>
      rw [pyGet, h]
      rfl
  obtain ⟨pi, hpi, hpe⟩ := List.mem_iff_getElem.mp hpcol
  have hpd : ws.header.getD pi .vnone = colProject := by
    rw [List.getD_eq_getElem _ _ hpi, hpe]
  have hrownm : newRow.getD pi .vnone = pyGet pd colProject := by
    rw [hval pi hpi, hpd, hnm]
    rfl
  have hany : newRow.any Value.truthy = true := by
    apply List.any_eq_true.mpr
    refine ⟨newRow.getD pi .vnone, ?_, ?_⟩
    · rw [List.getD_eq_getElem _ _ (by rw [hlen]; omega)]
      exact List.getElem_mem _
    · rw [hrownm]
      exact hname
  have hfd : List.find?
      (fun p => Value.pyEq (pyGet p colProject) (pyGet pd colProject))
      ((ws.data.filter (fun r => r.any Value.truthy)).map
        (rowToProject ws.header)) = none := by
    simpa [get_project, get_all_projects, Except.map] using hdup
  have hpget : pyGet (rowToProject ws.header newRow) colProject =
      pyGet pd colProject := by
    have h := dget_rowToProject ws newRow htr hdist pi hpi
    rw [hpd] at h
    rw [pyGet, h, hrownm]
    rfl
  refine ⟨⟨ws.header, ws.data ++ [newRow]⟩, rowToProject ws.header newRow,
    heq, ?_, ?_, ?_⟩
  · simp only [get_project, get_all_projects, Except.map,
      List.filter_append, List.map_append]
    simp only [List.filter_cons, hany, if_true, List.filter_nil,
      List.map_cons, List.map_nil]
    rw [List.find?_append, hfd, Option.none_or]
    simp [List.find?_cons, hpget, Value.pyEq_refl]
  · intro j hj
    rw [dget_rowToProject ws newRow htr hdist j hj, hval j hj]
  · intro hsc hnone
    obtain ⟨si, hsi, hse⟩ := List.mem_iff_getElem.mp hsc
    have hsd : ws.header.getD si .vnone = colStatus := by
      rw [List.getD_eq_getElem _ _ hsi, hse]
    have h := dget_rowToProject ws newRow htr hdist si hsi
    rw [hsd] at h
    rw [h, hval si hsi, hsd, hnone]
    rfl

/-- The worksheet after adding the record named Beta with no status. -/
def wsBeta : Worksheet :=
  ⟨headerW, [[.vstr "Alpha", .vstr "進行中", .vstr "2025-01-01", .vstr "A",
    .vstr ""], [.vstr "Beta", .vstr "", .vstr "", .vstr "", .vstr ""]]⟩

/-- The record `get_project "Beta"` returns after that add. -/
def projBeta : PyDict :=
  [(colProject, .vstr "Beta"), (colStatus, .vstr ""),
   (.vstr "期限", .vstr ""), (.vstr "担当者", .vstr ""),
   (.vstr "備考", .vstr "")]

/-- C1 counterexample: adding a valid record that omits the status field
and reading it back returns the blank string as its status, not the
default 未着手 ("not started") that the claim promises. -/
theorem c1_counterexample :
    add_project [(colProject, .vstr "Beta")] (some wsW) = .ok wsBeta ∧
    get_project (.vstr "Beta") (some wsBeta) = .ok (some projBeta) ∧
    dget projBeta colStatus = some (.vstr "") ∧
    Value.vstr "" ≠ Value.vstr "未着手" :=
  ⟨rfl, rfl, rfl, by decide⟩

/-- C1 witness: the amended round-trip instantiated on the sample
workbook with a record omitting the status. -/
theorem c1_witness :
    ∃ ws2 proj, add_project pdW (some wsW) = .ok ws2 ∧
      get_project (pyGet pdW colProject) (some ws2) = .ok (some proj) ∧
      (∀ j, j < wsW.header.length →
        dget proj (wsW.header.getD j .vnone) =
          some ((dget pdW (wsW.header.getD j .vnone)).getD (.vstr ""))) ∧
      (colStatus ∈ wsW.header → dget pdW colStatus = none →
        dget proj colStatus = some (.vstr "")) :=
  c1_add_get_roundtrip wsW pdW (by decide) (by decide) (by decide)
    (by decide) rfl (by decide)

/-! ### C3 -/

/-- C3 (amended): `search_projects` keeps exactly the records of
`get_all_projects` for which every filter entry compares `==` to
`project.get(key)` — where an absent key reads as None, so a record
lacking a filter key is kept when (and only when) that filter's value is
itself None; with a non-None filter value a record lacking the key never
matches, and empty filters return exactly `get_all_projects`. -/
theorem c3_search_filter_semantics :
    (∀ filters fs res all, search_projects filters fs = .ok res →
      get_all_projects fs = .ok all →
      ∀ p, p ∈ res ↔ p ∈ all ∧
        ∀ kv ∈ filters, Value.pyEq (pyGet p kv.1) kv.2 = true) ∧
    (∀ fs, search_projects [] fs = get_all_projects fs) ∧
    (∀ filters fs res p k v, search_projects filters fs = .ok res →
      (k, v) ∈ filters → dget p k = none → v ≠ .vnone → p ∉ res) := by
  refine ⟨?_, ?_, ?_⟩
  · intro filters fs res all hsearch hall p
    rw [search_projects, hall] at hsearch
    simp only [Except.map] at hsearch
    cases hsearch
    simp [List.mem_filter, List.all_eq_true]
  · intro fs
    cases fs with
    | none => rfl
    | some ws => simp [search_projects, get_all_projects, Except.map]
  · intro filters fs res p k v hsearch hkv hnone hv hmem
    cases fs with
    | none => cases hsearch
    | some ws =>
      simp only [search_projects, get_all_projects, Except.map] at hsearch
      cases hsearch
      have hall := (List.mem_filter.mp hmem).2
      have h := (List.all_eq_true.mp hall) (k, v) hkv
      simp only [pyGet, hnone, Option.getD_none] at h
      exact hv (pyEq_vnone_right h)

/-- A one-column table holding the single record A. -/
def wsOnlyName : Worksheet := ⟨[colProject], [[.vstr "A"]]⟩

/-- The record of `wsOnlyName`; it has no 担当者 (assignee) field. -/
def projOnlyName : PyDict := [(colProject, .vstr "A")]

/-- C3 counterexample: with the filter `{担当者: None}`, the record that
lacks the 担当者 key is matched and returned by `search_projects` — a
record lacking a filter key CAN match, because `dict.get` returns None
for it and `None == None` holds. -/
theorem c3_counterexample :
    search_projects [(.vstr "担当者", .vnone)] (some wsOnlyName) =
      .ok [projOnlyName] ∧
    dget projOnlyName (.vstr "担当者") = none :=
  ⟨rfl, rfl⟩

/-- C3 witness: the amended semantics instantiated on `wsOnlyName`. -/
theorem c3_witness :
    (projOnlyName ∈ [projOnlyName] ↔ projOnlyName ∈ [projOnlyName] ∧
      ∀ kv ∈ ([(colProject, Value.vstr "A")] : PyDict),
        Value.pyEq (pyGet projOnlyName kv.1) kv.2 = true) ∧
    search_projects [] (some wsOnlyName) =
      get_all_projects (some wsOnlyName) ∧
    projOnlyName ∉ ([] : List PyDict) :=
  ⟨c3_search_filter_semantics.1 [(colProject, .vstr "A")] (some wsOnlyName)
      [projOnlyName] [projOnlyName] rfl rfl projOnlyName,
   c3_search_filter_semantics.2.1 (some wsOnlyName),
   c3_search_filter_semantics.2.2 [(.vstr "担当者", .vstr "X")]
      (some wsOnlyName) [] projOnlyName (.vstr "担当者") (.vstr "X") rfl
      (by decide) rfl (by decide)⟩

/-! ### C5 -/

/-- C5 (amended): for a record that passes the validation steps (truthy
identity value, absent-or-valid status) and whose identity already
resolves via `get_project`, `add_project` fails with the duplicate error;
the failure happens before the append, so the worksheet is untouched (in
this model a mutated worksheet is only produced on `.ok`). -/
theorem c5_add_duplicate_rejected (fs : Option Worksheet) (pd p : PyDict)
    (hname : (pyGet pd colProject).truthy = true)
    (hstat : validate_status ((dget pd colStatus).getD (.vstr "未着手")) = true)
    (hdup : get_project (pyGet pd colProject) fs = .ok (some p)) :
    add_project pd fs = .error .duplicate := by
  have hne : p.isEmpty = false := by
    cases fs with
    | none => cases hdup
    | some ws =>
      simp only [get_project, get_all_projects, Except.map] at hdup
      cases hdup' : List.find?
          (fun q => Value.pyEq (pyGet q colProject) (pyGet pd colProject))
          ((ws.data.filter (fun r => r.any Value.truthy)).map
            (rowToProject ws.header)) with
      | none =>
        rw [hdup'] at hdup
        cases hdup
      | some q =>
        rw [hdup'] at hdup
        cases hdup
        have hq := List.find?_some hdup'
        cases p with
        | nil =>
          simp only [pyGet, dget, Option.getD_none] at hq
          have h2 := pyEq_vnone_right hq
          rw [pyGet, h2] at hname
          exact absurd hname (by simp [Value.truthy])
        | cons a l => rfl
  rw [add_project.eq_def]
  simp [hname, hstat, hdup, hne]

/-- A two-column table with the single record A (status 未着手). -/
def wsA : Worksheet := ⟨[colProject, colStatus], [[.vstr "A", .vstr "未着手"]]⟩

/-- The record A of `wsA`. -/
def projA : PyDict := [(colProject, .vstr "A"), (colStatus, .vstr "未着手")]

/-- C5 counterexample: the identity "A" already resolves via
`get_project`, yet adding a record named "A" with an out-of-enum status
fails with the invalid-data error, not the duplicate error — validation
runs before the duplicate check. -/
theorem c5_counterexample :
    get_project (.vstr "A") (some wsA) = .ok (some projA) ∧
    add_project [(colProject, .vstr "A"), (colStatus, .vstr "間違い")]
      (some wsA) = .error .invalidData ∧
    Err.invalidData ≠ Err.duplicate :=
  ⟨rfl, rfl, by decide⟩

/-- C5 witness: adding a valid record whose name duplicates record A. -/
theorem c5_witness :
    add_project [(colProject, .vstr "A")] (some wsA) = .error .duplicate :=
  c5_add_duplicate_rejected (some wsA) [(colProject, .vstr "A")] projA
    (by decide) (by decide) rfl

/-! ### C6 -/

/-- C6: an update whose patch carries a status outside the enum fails
with the invalid-data error regardless of the file state — the check runs
before any file access, so no row is ever modified (the conclusion holds
even for an absent file, which would otherwise report file-not-found). -/
theorem c6_update_invalid_status_fails_first (fs : Option Worksheet)
    (project_name : Value) (updates : PyDict) (st : Value)
    (hs : dget updates colStatus = some st)
    (hbad : validate_status st = false) :
    update_project project_name updates fs = .error .invalidData := by
  rw [update_project.eq_def]
  simp [hs, hbad]

/-- C6 witness: an invalid status is rejected even with no backing file,
showing the validation precedes the file I/O. -/
theorem c6_witness :
    update_project (.vstr "A") [(colStatus, .vstr "間違い")] none =
      .error .invalidData :=
  c6_update_invalid_status_fails_first none (.vstr "A")
    [(colStatus, .vstr "間違い")] (.vstr "間違い") rfl (by decide)

/-! ### Locating and patching the target row -/

theorem findIdx?_first {α : Type} (p : α → Bool) (l : List α) (d : α)
    (i j : Nat) (hj : j < l.length) (hp : p (l.getD j d) = true)
    (hfirst : ∀ j', j' < j → p (l.getD j' d) = false) :
    List.findIdx? p l i = some (i + j) := by
  induction l generalizing i j with
  | nil => exact absurd hj (by simp)
  | cons c rest ih =>
    cases j with
    | zero =>
      have hc : p c = true := by simpa using hp
      rw [List.findIdx?_cons, if_pos hc]
      rfl
    | succ j' =>
      have hc : p c = false := by simpa using hfirst 0 (Nat.succ_pos j')
      rw [List.findIdx?_cons, if_neg (by simp [hc])]
      have hrec := ih (i + 1) j' (by simp only [List.length_cons] at hj; omega)
        (by simpa using hp)
        (fun j'' h => by simpa using hfirst (j'' + 1) (Nat.succ_lt_succ h))
      rw [hrec]
      congr 1
      omega

theorem applyUpdates_getD (hm : List (Value × Nat)) (updates : PyDict)
    (row : List Value) (ci : Nat) :
    (applyUpdates hm updates row).getD ci .vnone =
      match lastPatchAt hm updates ci with
      | some v => v
      | none => row.getD ci .vnone := by
  induction updates generalizing row with
  | nil => rfl
  | cons kv rest ih =>
    obtain ⟨k, v⟩ := kv
    have hstep : applyUpdates hm ((k, v) :: rest) row =
        applyUpdates hm rest
          (match dget hm k with
           | some ci' => setCell row ci' v
           | none => row) := rfl
    rw [hstep, ih]
    cases hrest : lastPatchAt hm rest ci with
    | some w => simp [lastPatchAt, hrest]
    | none =>
      simp only [lastPatchAt, hrest]
      cases hd : dget hm k with
      | none => simp [hd]
      | some ci' =>
        simp only [hd, Option.some.injEq]
        by_cases hc : ci' = ci
        · subst hc
          rw [if_pos rfl]
          exact setCell_getD_eq row ci' v
        · rw [if_neg hc]
          exact setCell_getD_ne row ci' ci v hc

theorem lastPatchAt_eq_none (hm : List (Value × Nat)) (updates : PyDict)
    (ci : Nat) (h : ∀ kv ∈ updates, ¬ dget hm kv.1 = some ci) :
    lastPatchAt hm updates ci = none := by
  induction updates with
  | nil => rfl
  | cons kv rest ih =>
    obtain ⟨k, v⟩ := kv
    rw [lastPatchAt, ih (fun kv hkv => h kv (List.mem_cons_of_mem _ hkv))]
    simp [h (k, v) (by simp)]

/-- What a successful `update_project` returns: the first matching row,
patched in place by the update loop. -/
theorem update_project_ok (ws : Worksheet) (project_name : Value)
    (updates : PyDict) (pidx j : Nat)
    (hst : ∀ st, dget updates colStatus = some st → validate_status st = true)
    (hpc : dget (get_header_mapping ws) colProject = some pidx)
    (hj : j < ws.data.length)
    (hmatch : Value.pyEq ((ws.data.getD j []).getD pidx .vnone)
      project_name = true)
    (hfirst : ∀ j', j' < j →
      Value.pyEq ((ws.data.getD j' []).getD pidx .vnone)
        project_name = false) :
    update_project project_name updates (some ws) =
      .ok ⟨ws.header, ws.data.set j
        (applyUpdates (get_header_mapping ws) updates (ws.data.getD j []))⟩ := by
  have hcond : (match dget updates colStatus with
      | some st => !validate_status st
      | none => false) = false := by
    cases h : dget updates colStatus with
    | none => rfl
    | some st => simp [hst st h]
  have hfind : ws.data.findIdx?
      (fun r => Value.pyEq (r.getD pidx .vnone) project_name) = some j := by
    have h := findIdx?_first
      (fun r => Value.pyEq (r.getD pidx .vnone) project_name) ws.data [] 0 j
      hj hmatch hfirst
    simpa using h
  rw [update_project.eq_def]
  simp only [hcond, Bool.false_eq_true, if_false, hpc, hfind]

/-! ### C7 -/

/-- C7: a successful `update_project` only changes the first row
(top-to-bottom) whose identity cell compares `==` to the name: its header
and every other row are untouched, in the patched row the cell of each
schema column written by the patch holds the (last) patch value written
there, and every cell of a column no patch key is mapped to keeps its old
value — patch keys absent from the schema are silently ignored. -/
theorem c7_update_patches_first_match_only (ws : Worksheet)
    (project_name : Value) (updates : PyDict) (pidx j : Nat)
    (hst : ∀ st, dget updates colStatus = some st → validate_status st = true)
    (hpc : dget (get_header_mapping ws) colProject = some pidx)
    (hj : j < ws.data.length)
    (hmatch : Value.pyEq ((ws.data.getD j []).getD pidx .vnone)
      project_name = true)
    (hfirst : ∀ j', j' < j →
      Value.pyEq ((ws.data.getD j' []).getD pidx .vnone)
        project_name = false) :
    ∃ ws2, update_project project_name updates (some ws) = .ok ws2 ∧
      ws2.header = ws.header ∧
      ws2.data.length = ws.data.length ∧
      (∀ j2, j2 ≠ j → ws2.data.getD j2 [] = ws.data.getD j2 []) ∧
      (∀ ci v, lastPatchAt (get_header_mapping ws) updates ci = some v →
        (ws2.data.getD j []).getD ci .vnone = v) ∧
      (∀ ci, (∀ kv ∈ updates, ¬ dget (get_header_mapping ws) kv.1 = some ci) →
        (ws2.data.getD j []).getD ci .vnone =
          (ws.data.getD j []).getD ci .vnone) := by
  refine ⟨_, update_project_ok ws project_name updates pidx j hst hpc hj
    hmatch hfirst, rfl, by simp, ?_, ?_, ?_⟩
  · intro j2 hne
    exact getD_set_ne ws.data j j2 _ [] (fun he => hne he.symm)
  · intro ci v hv
    rw [getD_set_eq ws.data j _ [] hj, applyUpdates_getD, hv]
  · intro ci hnone
    rw [getD_set_eq ws.data j _ [] hj, applyUpdates_getD,
      lastPatchAt_eq_none _ _ _ hnone]

/-- The sample two-record table (records A and B). -/
def wsAB : Worksheet :=
  ⟨[colProject, colStatus],
   [[.vstr "A", .vstr "未着手"], [.vstr "B", .vstr "未着手"]]⟩

/-- C7 witness: updating record Alpha's status on the sample workbook. -/
theorem c7_witness :
    ∃ ws2, update_project (.vstr "Alpha") [(colStatus, .vstr "完了")]
        (some wsW) = .ok ws2 ∧
      ws2.header = wsW.header ∧
      ws2.data.length = wsW.data.length ∧
      (∀ j2, j2 ≠ 0 → ws2.data.getD j2 [] = wsW.data.getD j2 []) ∧
      (∀ ci v, lastPatchAt (get_header_mapping wsW)
          [(colStatus, .vstr "完了")] ci = some v →
        (ws2.data.getD 0 []).getD ci .vnone = v) ∧
      (∀ ci, (∀ kv ∈ ([(colStatus, .vstr "完了")] : PyDict),
          ¬ dget (get_header_mapping wsW) kv.1 = some ci) →
        (ws2.data.getD 0 []).getD ci .vnone =
          (wsW.data.getD 0 []).getD ci .vnone) :=
  c7_update_patches_first_match_only wsW (.vstr "Alpha")
    [(colStatus, .vstr "完了")] 0 0
    (fun st h => by
      rw [show dget [(colStatus, Value.vstr "完了")] colStatus =
        some (Value.vstr "完了") from rfl] at h
      injection h with h2
      rw [← h2]
      decide)
    rfl (by decide) (by decide) (by decide)

/-! ### C9 -/

/-- C9: `update_project` applies a patch containing the identity column
name by overwriting the identity cell of the matched row, with no
duplicate check: renaming a row to another row's existing name succeeds,
after which the two distinct rows carry `==`-equal identity values — the
uniqueness of the identity is broken. -/
theorem c9_update_can_break_uniqueness (ws : Worksheet)
    (project_name v : Value) (updates : PyDict) (pidx j j2 : Nat)
    (hst : ∀ st, dget updates colStatus = some st → validate_status st = true)
    (hpc : dget (get_header_mapping ws) colProject = some pidx)
    (hj : j < ws.data.length)
    (hmatch : Value.pyEq ((ws.data.getD j []).getD pidx .vnone)
      project_name = true)
    (hfirst : ∀ j', j' < j →
      Value.pyEq ((ws.data.getD j' []).getD pidx .vnone)
        project_name = false)
    (hpatch : lastPatchAt (get_header_mapping ws) updates pidx = some v)
    (_hj2 : j2 < ws.data.length) (hne : j2 ≠ j)
    (hother : Value.pyEq ((ws.data.getD j2 []).getD pidx .vnone) v = true) :
    ∃ ws2, update_project project_name updates (some ws) = .ok ws2 ∧
      (ws2.data.getD j []).getD pidx .vnone = v ∧
      ws2.data.getD j2 [] = ws.data.getD j2 [] ∧
      Value.pyEq ((ws2.data.getD j []).getD pidx .vnone)
        ((ws2.data.getD j2 []).getD pidx .vnone) = true := by
  refine ⟨_, update_project_ok ws project_name updates pidx j hst hpc hj
    hmatch hfirst, ?_, ?_, ?_⟩
  · rw [getD_set_eq ws.data j _ [] hj, applyUpdates_getD, hpatch]
  · exact getD_set_ne ws.data j j2 _ [] (fun he => hne he.symm)
  · rw [getD_set_eq ws.data j _ [] hj, applyUpdates_getD, hpatch,
      getD_set_ne ws.data j j2 _ [] (fun he => hne he.symm),
      Value.pyEq_symm]
    exact hother

/-- C9 witness: renaming record B to A on the sample two-record table
leaves two rows both named A. -/
theorem c9_witness :
    ∃ ws2, update_project (.vstr "B") [(colProject, .vstr "A")]
        (some wsAB) = .ok ws2 ∧
      (ws2.data.getD 1 []).getD 0 .vnone = .vstr "A" ∧
      ws2.data.getD 0 [] = wsAB.data.getD 0 [] ∧
      Value.pyEq ((ws2.data.getD 1 []).getD 0 .vnone)
        ((ws2.data.getD 0 []).getD 0 .vnone) = true :=
  c9_update_can_break_uniqueness wsAB (.vstr "B") (.vstr "A")
    [(colProject, .vstr "A")] 0 1 0
    (fun st h => Option.noConfusion h)
    rfl (by decide) (by decide) (by decide) rfl (by decide) (by decide)
    (by decide)

/-! ### C8 -/

/-- C8: `delete_project` of a name whose first `==`-match (top-to-bottom
on the identity column) is row `j` removes exactly that one row, leaving
the rows before it and after it in their relative order; when no row's
identity cell matches the name, it fails with the not-found error and no
worksheet is produced (the file is untouched). -/
theorem c8_delete_removes_exactly_first_match :
    (∀ ws project_name pidx j,
      dget (get_header_mapping ws) colProject = some pidx →
      j < ws.data.length →
      Value.pyEq ((ws.data.getD j []).getD pidx .vnone) project_name = true →
      (∀ j', j' < j →
        Value.pyEq ((ws.data.getD j' []).getD pidx .vnone)
          project_name = false) →
      delete_project project_name (some ws) =
        .ok ⟨ws.header, ws.data.take j ++ ws.data.drop (j + 1)⟩) ∧
    (∀ ws project_name pidx,
      dget (get_header_mapping ws) colProject = some pidx →
      (∀ r ∈ ws.data,
        Value.pyEq (r.getD pidx .vnone) project_name = false) →
      delete_project project_name (some ws) = .error .notFound) := by
  constructor
  · intro ws project_name pidx j hpc hj hmatch hfirst
    have hfind : ws.data.findIdx?
        (fun r => Value.pyEq (r.getD pidx .vnone) project_name) = some j := by
      have h := findIdx?_first
        (fun r => Value.pyEq (r.getD pidx .vnone) project_name) ws.data [] 0 j
        hj hmatch hfirst
      simpa using h
    rw [delete_project.eq_def]
    simp only [hpc, hfind, List.eraseIdx_eq_take_drop_succ]
  · intro ws project_name pidx hpc hnone
    have hfind : ws.data.findIdx?
        (fun r => Value.pyEq (r.getD pidx .vnone) project_name) = none :=
      List.findIdx?_eq_none_iff.mpr (fun r hr => hnone r hr)
    rw [delete_project.eq_def]
    simp only [hpc, hfind]

/-- C8 witness: deleting record A from the two-record table keeps exactly
record B; deleting the absent name C fails with not-found. -/
theorem c8_witness :
    delete_project (.vstr "A") (some wsAB) =
      .ok ⟨wsAB.header, wsAB.data.take 0 ++ wsAB.data.drop 1⟩ ∧
    delete_project (.vstr "C") (some wsAB) = .error .notFound :=
  ⟨c8_delete_removes_exactly_first_match.1 wsAB (.vstr "A") 0 0 rfl
      (by decide) (by decide) (by decide),
   c8_delete_removes_exactly_first_match.2 wsAB (.vstr "C") 0 rfl
      (by decide)⟩

/-! ### C4 -/

theorem lastTruthy_not_truthy (cells : List Value) (i : Nat) (q : Value)
    (hq : q.truthy = false) : lastTruthy cells i q = none := by
  induction cells generalizing i with
  | nil => rfl
  | cons c rest ih =>
    have hcq : (c.truthy && Value.pyEq c q) = false := by
      cases hp : Value.pyEq c q
      · simp
      · have h := pyEq_truthy hp
        rw [hq] at h
        simp [h]
    simp [lastTruthy, ih (i + 1), hcq]

theorem lastTruthy_eq_lastStrIdx (cells : List Value) (i : Nat) (s : String)
    (hs : s ≠ "")
    (hcells : ∀ c ∈ cells, c = Value.vnone ∨ ∃ t, c = Value.vstr t) :
    lastTruthy cells i (.vstr s) = lastStrIdx cells i s := by
  induction cells generalizing i with
  | nil => rfl
  | cons c rest ih =>
    have hrec := ih (i + 1) (fun c hc => hcells c (List.mem_cons_of_mem _ hc))
    have hcond : (c.truthy && Value.pyEq c (.vstr s)) =
        decide (c = .vstr s) := by
      rcases hcells c (by simp) with h | ⟨t, h⟩
      · subst h
        simp [Value.truthy, Value.pyEq, Value.pyKey]
      · subst h
        by_cases ht : t = s
        · subst ht
          simp [Value.truthy, Value.pyEq, hs]
        · simp [Value.truthy, Value.pyEq, Value.pyKey, ht]
    rw [lastTruthy, lastStrIdx, hrec]
    cases lastStrIdx rest (i + 1) s with
    | some j => rfl
    | none => simp [hcond]

/-- C4: the schema resolver maps each non-empty string header cell to the
zero-based index of its LAST occurrence (a later duplicate overwrites an
earlier one), maps nothing for blank cells (the empty string, and the
empty cell None — more generally any falsy cell value), and an empty
header row yields the empty mapping with no error. -/
theorem c4_header_mapping_last_wins :
    (∀ ws s, (∀ c ∈ ws.header, c = Value.vnone ∨ ∃ t, c = Value.vstr t) →
      s ≠ "" →
      dget (get_header_mapping ws) (.vstr s) = lastStrIdx ws.header 0 s) ∧
    (∀ ws q, q.truthy = false → dget (get_header_mapping ws) q = none) ∧
    (∀ rows, get_header_mapping ⟨[], rows⟩ = []) := by
  refine ⟨?_, ?_, ?_⟩
  · intro ws s hcells hs
    rw [get_header_mapping, dget_rowFold,
      lastTruthy_eq_lastStrIdx ws.header 0 s hs hcells]
    cases lastStrIdx ws.header 0 s with
    | some j => rfl
    | none => rfl
  · intro ws q hq
    rw [get_header_mapping, dget_rowFold, lastTruthy_not_truthy _ _ _ hq]
    rfl
  · intro rows
    rfl

/-- A header with a duplicated name (a, at indices 0 and 4), a blank
string cell and a None cell. -/
def wsH : Worksheet :=
  ⟨[.vstr "a", .vstr "", .vstr "b", .vnone, .vstr "a"], []⟩

/-- C4 witness: on `wsH` the duplicate name a resolves to the last
occurrence (index 4, checked against the spec-side description), blanks
resolve to nothing, and the empty header yields the empty mapping. -/
theorem c4_witness :
    (dget (get_header_mapping wsH) (.vstr "a") = lastStrIdx wsH.header 0 "a" ∧
      lastStrIdx wsH.header 0 "a" = some 4) ∧
    dget (get_header_mapping wsH) (.vstr "") = none ∧
    dget (get_header_mapping wsH) .vnone = none ∧
    get_header_mapping ⟨[], []⟩ = [] :=
  ⟨⟨c4_header_mapping_last_wins.1 wsH "a"
      (by
        intro c hc
        simp only [wsH, List.mem_cons, List.not_mem_nil, or_false] at hc
        rcases hc with rfl | rfl | rfl | rfl | rfl
        · exact Or.inr ⟨"a", rfl⟩
        · exact Or.inr ⟨"", rfl⟩
        · exact Or.inr ⟨"b", rfl⟩
        · exact Or.inl rfl
        · exact Or.inr ⟨"a", rfl⟩)
      (by decide), rfl⟩,
   c4_header_mapping_last_wins.2.1 wsH (.vstr "") (by decide),
   c4_header_mapping_last_wins.2.1 wsH .vnone (by decide),
   c4_header_mapping_last_wins.2.2 []⟩

/-! ### C10 -/

/-- A table whose first row's only populated cell is the number 0 and
whose second row holds False and the empty string. -/
def wsZ : Worksheet :=
  ⟨[colProject, .vstr "備考"],
   [[.vint 0, .vnone], [.vbool false, .vstr ""], [.vstr "A", .vstr "x"]]⟩

/-- The single record `get_all_projects` keeps from `wsZ`. -/
def projZ : PyDict := [(colProject, .vstr "A"), (.vstr "備考", .vstr "x")]

/-- C10: the blank-row test of `get_all_projects` is Python truthiness of
the whole row, so every all-falsy row is silently dropped — removing the
all-falsy rows from a table does not change `get_all_projects` — and in
particular a row whose only populated cell is the number 0 (or False) is
excluded from `get_all_projects`, `get_project` and `search_projects`. -/
theorem c10_falsy_rows_dropped :
    (∀ ws, get_all_projects (some ws) =
      get_all_projects (some ⟨ws.header,
        ws.data.filter (fun r => r.any Value.truthy)⟩)) ∧
    get_all_projects (some wsZ) = .ok [projZ] ∧
    get_project (.vint 0) (some wsZ) = .ok none ∧
    search_projects [] (some wsZ) = .ok [projZ] := by
  refine ⟨?_, rfl, rfl, rfl⟩
  intro ws
  simp only [get_all_projects, List.filter_filter, Bool.and_self]

end ExcelHandler
